import Mathlib

/-!
Verification of the `handlevec` crate (`src/lib.rs`): a shallow embedding of
`VecMutationHandle` and the driven iteration loop `mutate_vec_by_handles`,
together with proofs about the behaviour of the public operations.

The Rust handle holds a mutable borrow of the vector and a mutable borrow of
the cursor location of the caller (`next_index`).  The embedding resolves those borrows into
explicit state: a handle state is the current contents of the vector, the
fixed `index` captured at construction, and the current value of the cursor
location.  Consuming operations (`discard`, `stop_iteration`,
`discard_and_stop_iteration`) return the final contents of the two borrowed
locations (and the removed element, where applicable); non-consuming
operations return the updated handle state.  Machine integers (`usize`) are
modelled as `Nat`, with overflow stated explicitly against `usizeMAX` where
it matters.
-/

namespace HandleVec

universe u

variable {T : Type u}

/-- The value of the Rust constant `usize::MAX` on a 64-bit target. -/
def usizeMAX : Nat := 2 ^ 64 - 1

/-- Embedding of the struct `VecMutationHandle` (lines 95-99 of `src/lib.rs`):
the contents of the borrowed vector, the fixed current `index`, and the value held
in the borrowed `next_index` cursor location. -/
structure VecMutationHandle (T : Type u) where
  vec : List T
  index : Nat
  next_index : Nat
deriving DecidableEq

/-- Embedding of `VecMutationHandle::new` (lines 111-123): if the cursor is strictly below
the vector length, the returned handle captures the old cursor value as
`index` and the cursor location is overwritten with `index + 1`; otherwise no
handle is produced. -/
def VecMutationHandle.new (vec : List T) (cursor : Nat) : Option (VecMutationHandle T) :=
  if cursor < vec.length then some ⟨vec, cursor, cursor + 1⟩ else none

/-- Embedding of `VecMutationHandle::new` again, with its effect on the two borrowed
locations made explicit: the triple is the optional handle, the contents left
in the vector location, and the value left in the cursor location.  On the
failure path (line 121) the function writes to neither location. -/
def VecMutationHandle.newEffect (vec : List T) (cursor : Nat) :
    Option (VecMutationHandle T) × List T × Nat :=
  if cursor < vec.length then (some ⟨vec, cursor, cursor + 1⟩, vec, cursor + 1)
  else (none, vec, cursor)

/-- Embedding of `VecMutationHandle::get` (lines 129-131): the lookup `self.vec.get(self.index)`
whose result the source unwraps.  `some` means the unwrap succeeds. -/
def VecMutationHandle.get (h : VecMutationHandle T) : Option T :=
  h.vec[h.index]?

/-- Embedding of `VecMutationHandle::get_mut` (lines 137-139): the same lookup as `get`,
through `Vec::get_mut`. -/
def VecMutationHandle.get_mut (h : VecMutationHandle T) : Option T :=
  h.vec[h.index]?

/-- Embedding of `VecMutationHandle::set` (lines 203-205): overwrite the element at `index`
through `get_mut`. -/
def VecMutationHandle.set (h : VecMutationHandle T) (t : T) : VecMutationHandle T :=
  ⟨h.vec.set h.index t, h.index, h.next_index⟩

/-- Embedding of `VecMutationHandle::replace` (lines 208-211): overwrite the element at
`index` and hand the old element back to the caller. -/
def VecMutationHandle.replace (h : VecMutationHandle T) (t : T) :
    Option T × VecMutationHandle T :=
  (h.vec[h.index]?, h.set t)

/-- Embedding of `VecMutationHandle::discard` (lines 144-147): decrement the cursor
location, remove the element at `index` and return it.  The result is the
removed element together with the final contents of the vector and cursor
locations (the handle is consumed).  The cursor decrement is `Nat`
subtraction; on reachable states the Rust `-= 1` cannot underflow (see the
theorems for claim C5). -/
def VecMutationHandle.discard (h : VecMutationHandle T) : Option T × List T × Nat :=
  (h.vec[h.index]?, h.vec.eraseIdx h.index, h.next_index - 1)

/-- Embedding of `VecMutationHandle::insert_and_process` (lines 150-153): insert at
`index + 1`; the cursor is untouched, so the new element is processed on the
next step. -/
def VecMutationHandle.insert_and_process (h : VecMutationHandle T) (t : T) :
    VecMutationHandle T :=
  ⟨h.vec.insertIdx (h.index + 1) t, h.index, h.next_index⟩

/-- Embedding of `VecMutationHandle::skip_forward` (lines 156-158): add `steps_to_skip` to
the cursor location.  The addition is `Nat` addition; overflow of the Rust
`+=` is stated against `usizeMAX` in claim C5. -/
def VecMutationHandle.skip_forward (h : VecMutationHandle T) (steps_to_skip : Nat) :
    VecMutationHandle T :=
  ⟨h.vec, h.index, h.next_index + steps_to_skip⟩

/-- Embedding of `VecMutationHandle::stop_iteration` (lines 163-165): set the cursor
location to `usize::MAX`; the handle is consumed, so the result is the final
contents of the vector and cursor locations. -/
def VecMutationHandle.stop_iteration (h : VecMutationHandle T) : List T × Nat :=
  (h.vec, usizeMAX)

/-- Embedding of `VecMutationHandle::discard_and_stop_iteration` (lines 170-173): set the
cursor location to `usize::MAX`, remove the element at `index` and return
it. -/
def VecMutationHandle.discard_and_stop_iteration (h : VecMutationHandle T) :
    Option T × List T × Nat :=
  (h.vec[h.index]?, h.vec.eraseIdx h.index, usizeMAX)

/-- Embedding of `VecMutationHandle::peek_forward_slice` (lines 177-182) with the full
range: the view `self.vec.get(self.index..)`, from which every sub-slice the
generic `SliceIndex` argument can request is taken. -/
def VecMutationHandle.peek_forward (h : VecMutationHandle T) : List T :=
  h.vec.drop h.index

/-- Embedding of `VecMutationHandle::insert_and_skip` (lines 197-200): `insert_and_process`
followed by `skip_forward(1)`. -/
def VecMutationHandle.insert_and_skip (h : VecMutationHandle T) (t : T) :
    VecMutationHandle T :=
  (h.insert_and_process t).skip_forward 1

/-- Embedding of `VecMutationHandle::insert_and_process_vec` (lines 214-219): repeated
`insert_and_process` over the reversed input, preserving order. -/
def VecMutationHandle.insert_and_process_vec (h : VecMutationHandle T) (ts : List T) :
    VecMutationHandle T :=
  ts.reverse.foldl (fun a t => a.insert_and_process t) h

/-- Embedding of `VecMutationHandle::insert_and_skip_vec` (lines 222-226):
`insert_and_process_vec` followed by `skip_forward(vec.len())`. -/
def VecMutationHandle.insert_and_skip_vec (h : VecMutationHandle T) (ts : List T) :
    VecMutationHandle T :=
  (h.insert_and_process_vec ts).skip_forward ts.length

/-- The internal contract stated in the source comment (lines 88-92),
specialised to a live handle: the index is in bounds and the cursor is at
least `index + 1` (the value `new` wrote, only ever increased while the
handle is alive). -/
def LiveInv (h : VecMutationHandle T) : Prop :=
  h.index < h.vec.length ∧ h.index + 1 ≤ h.next_index

instance (h : VecMutationHandle T) : Decidable (LiveInv h) :=
  inferInstanceAs (Decidable (h.index < h.vec.length ∧ h.index + 1 ≤ h.next_index))

/-- Handle states reachable through the public interface: produced by a
successful `new` and transformed by any sequence of the non-consuming
operations. -/
inductive Reachable : VecMutationHandle T → Prop
  | new (vec : List T) (cursor : Nat) (h : VecMutationHandle T) :
      VecMutationHandle.new vec cursor = some h → Reachable h
  | set (h : VecMutationHandle T) (t : T) : Reachable h → Reachable (h.set t)
  | replace (h : VecMutationHandle T) (t : T) : Reachable h → Reachable (h.replace t).2
  | insert_and_process (h : VecMutationHandle T) (t : T) :
      Reachable h → Reachable (h.insert_and_process t)
  | insert_and_skip (h : VecMutationHandle T) (t : T) :
      Reachable h → Reachable (h.insert_and_skip t)
  | insert_and_process_vec (h : VecMutationHandle T) (ts : List T) :
      Reachable h → Reachable (h.insert_and_process_vec ts)
  | insert_and_skip_vec (h : VecMutationHandle T) (ts : List T) :
      Reachable h → Reachable (h.insert_and_skip_vec ts)
  | skip_forward (h : VecMutationHandle T) (n : Nat) :
      Reachable h → Reachable (h.skip_forward n)

theorem liveInv_set (h : VecMutationHandle T) (t : T) (hi : LiveInv h) :
    LiveInv (h.set t) := by
  obtain ⟨h1, h2⟩ := hi
  exact ⟨by simpa [VecMutationHandle.set] using h1, h2⟩

theorem liveInv_insert_and_process (h : VecMutationHandle T) (t : T) (hi : LiveInv h) :
    LiveInv (h.insert_and_process t) := by
  obtain ⟨h1, h2⟩ := hi
  refine ⟨?_, h2⟩
  have hlen : (h.vec.insertIdx (h.index + 1) t).length = h.vec.length + 1 :=
    List.length_insertIdx _ _ h1
  simp only [VecMutationHandle.insert_and_process, hlen]
  omega

theorem liveInv_skip_forward (h : VecMutationHandle T) (n : Nat) (hi : LiveInv h) :
    LiveInv (h.skip_forward n) := by
  obtain ⟨h1, h2⟩ := hi
  exact ⟨h1, by simp only [VecMutationHandle.skip_forward]; omega⟩

theorem liveInv_insert_and_skip (h : VecMutationHandle T) (t : T) (hi : LiveInv h) :
    LiveInv (h.insert_and_skip t) :=
  liveInv_skip_forward _ 1 (liveInv_insert_and_process h t hi)

theorem liveInv_foldl_insert (l : List T) (h : VecMutationHandle T) (hi : LiveInv h) :
    LiveInv (l.foldl (fun a t => a.insert_and_process t) h) := by
  induction l generalizing h with
  | nil => exact hi
  | cons x xs ih => exact ih _ (liveInv_insert_and_process h x hi)

theorem liveInv_insert_and_process_vec (h : VecMutationHandle T) (ts : List T)
    (hi : LiveInv h) : LiveInv (h.insert_and_process_vec ts) :=
  liveInv_foldl_insert _ h hi

theorem liveInv_insert_and_skip_vec (h : VecMutationHandle T) (ts : List T)
    (hi : LiveInv h) : LiveInv (h.insert_and_skip_vec ts) :=
  liveInv_skip_forward _ _ (liveInv_insert_and_process_vec h ts hi)

/-- Every handle state reachable through the public interface satisfies the
internal contract. -/
theorem Reachable.liveInv {h : VecMutationHandle T} (hr : Reachable h) : LiveInv h := by
  induction hr with
  | new vec cursor h hnew =>
    unfold VecMutationHandle.new at hnew
    split at hnew
    · cases hnew
      exact ⟨by assumption, Nat.le_refl _⟩
    · cases hnew
  | set h t _ ih => exact liveInv_set h t ih
  | replace h t _ ih => exact liveInv_set h t ih
  | insert_and_process h t _ ih => exact liveInv_insert_and_process h t ih
  | insert_and_skip h t _ ih => exact liveInv_insert_and_skip h t ih
  | insert_and_process_vec h ts _ ih => exact liveInv_insert_and_process_vec h ts ih
  | insert_and_skip_vec h ts _ ih => exact liveInv_insert_and_skip_vec h ts ih
  | skip_forward h n _ ih => exact liveInv_skip_forward h n ih

theorem insertIdx_eq_take_cons_drop (a : T) :
    ∀ (i : Nat) (l : List T), i ≤ l.length →
      l.insertIdx i a = l.take i ++ a :: l.drop i
  | 0, l, _ => by simp [List.insertIdx_zero]
  | i + 1, [], h => by simp at h
  | i + 1, x :: xs, h => by
    simp only [List.insertIdx_succ_cons, List.take_succ_cons, List.drop_succ_cons,
      List.cons_append]
    rw [insertIdx_eq_take_cons_drop a i xs (by simpa using h)]

theorem next_index_foldl_insert (l : List T) (h : VecMutationHandle T) :
    (l.foldl (fun a t => a.insert_and_process t) h).next_index = h.next_index := by
  induction l generalizing h with
  | nil => rfl
  | cons x xs ih => exact (ih _).trans rfl

/-- C2: `new(v, cursor)` returns no handle iff the cursor is at least the
vector length; otherwise it returns a live handle whose position is the old
cursor value `c` and overwrites the cursor location with `c + 1`. -/
theorem new_spec (v : List T) (c : Nat) :
    ((VecMutationHandle.newEffect v c).1 = none ↔ v.length ≤ c) ∧
      (c < v.length →
        VecMutationHandle.newEffect v c = (some ⟨v, c, c + 1⟩, v, c + 1)) := by
  unfold VecMutationHandle.newEffect
  split
  · rename_i hlt
    exact ⟨⟨fun hc => by simp at hc, fun hle => absurd hlt (Nat.not_lt.mpr hle)⟩,
      fun _ => rfl⟩
  · rename_i hge
    exact ⟨⟨fun _ => Nat.not_lt.mp hge, fun _ => rfl⟩, fun hc => absurd hc hge⟩

/-- Witness for C2 at `v = [10, 20]`, `c = 0`. -/
theorem new_spec_witness :
    VecMutationHandle.newEffect [10, 20] 0 = (some ⟨[10, 20], 0, 1⟩, [10, 20], 1) :=
  (new_spec [10, 20] 0).2 (by decide)

/-- C10: when the cursor is not below the vector length, `new` returns no
handle and leaves both borrowed locations (vector and cursor) unchanged. -/
theorem new_fail_no_side_effects (v : List T) (c : Nat) (hc : v.length ≤ c) :
    VecMutationHandle.newEffect v c = (none, v, c) := by
  unfold VecMutationHandle.newEffect
  rw [if_neg (Nat.not_lt.mpr hc)]

/-- Witness for C10 at `v = [1, 2]`, `c = 5`. -/
theorem new_fail_no_side_effects_witness :
    VecMutationHandle.newEffect ([1, 2] : List Nat) 5 = (none, [1, 2], 5) :=
  new_fail_no_side_effects [1, 2] 5 (by decide)

/-- C1: on a live handle at position `p`, `discard` returns the element at
`p`, removes exactly that element (indices below `p` unchanged, higher
indices shifted down by one), and decrements the cursor by exactly one; when
the cursor still holds the value `p + 1` written by `new`, the next
constructed handle lands on position `p`, which now holds the element
originally at `p + 1`. -/
theorem discard_spec (h : VecMutationHandle T) (hi : LiveInv h) :
    (h.discard.1 = h.vec[h.index]? ∧ h.discard.1.isSome) ∧
    h.discard.2.1 = h.vec.take h.index ++ h.vec.drop (h.index + 1) ∧
    (∀ i : Nat, i < h.index → h.discard.2.1[i]? = h.vec[i]?) ∧
    (∀ i : Nat, h.index ≤ i → h.discard.2.1[i]? = h.vec[i + 1]?) ∧
    h.discard.2.1.length + 1 = h.vec.length ∧
    h.discard.2.2 + 1 = h.next_index ∧
    (h.next_index = h.index + 1 → h.index + 1 < h.vec.length →
      VecMutationHandle.new h.discard.2.1 h.discard.2.2 =
        some ⟨h.discard.2.1, h.index, h.index + 1⟩ ∧
      h.discard.2.1[h.index]? = h.vec[h.index + 1]?) := by
  obtain ⟨hlt, hge⟩ := hi
  have herase : h.vec.eraseIdx h.index = h.vec.take h.index ++ h.vec.drop (h.index + 1) :=
    List.eraseIdx_eq_take_drop_succ ..
  have hlen : (h.vec.eraseIdx h.index).length + 1 = h.vec.length := by
    rw [herase]
    simp only [List.length_append, List.length_take, List.length_drop]
    omega
  have hlow : ∀ i : Nat, i < h.index → (h.vec.eraseIdx h.index)[i]? = h.vec[i]? := by
    intro i hilt
    rw [herase, List.getElem?_append_left, List.getElem?_take_of_lt hilt]
    simp only [List.length_take]
    omega
  have hhigh : ∀ i : Nat, h.index ≤ i → (h.vec.eraseIdx h.index)[i]? = h.vec[i + 1]? := by
    intro i hile
    rw [herase, List.getElem?_append_right, List.getElem?_drop]
    · congr 1
      simp only [List.length_take]
      omega
    · simp only [List.length_take]
      omega
  refine ⟨⟨rfl, ?_⟩, herase, hlow, hhigh, hlen, ?_, ?_⟩
  · simp [VecMutationHandle.discard, List.getElem?_eq_getElem hlt]
  · show h.next_index - 1 + 1 = h.next_index
    omega
  · intro hfresh hnext
    have hc : h.next_index - 1 = h.index := by omega
    constructor
    · show VecMutationHandle.new (h.vec.eraseIdx h.index) (h.next_index - 1) = _
      rw [hc]
      unfold VecMutationHandle.new
      rw [if_pos (by omega)]
      exact rfl
    · exact hhigh h.index (Nat.le_refl _)

/-- Witness for C1: discarding from the handle `new [7, 8, 9] 0` produces. -/
theorem discard_spec_witness :
    ((⟨[7, 8, 9], 0, 1⟩ : VecMutationHandle Nat).discard.1 =
        ([7, 8, 9] : List Nat)[(0 : Nat)]? ∧
      (⟨[7, 8, 9], 0, 1⟩ : VecMutationHandle Nat).discard.1.isSome) ∧
    (⟨[7, 8, 9], 0, 1⟩ : VecMutationHandle Nat).discard.2.1 =
      ([7, 8, 9] : List Nat).take 0 ++ ([7, 8, 9] : List Nat).drop 1 := by
  have hmain := discard_spec (⟨[7, 8, 9], 0, 1⟩ : VecMutationHandle Nat) (by decide)
  exact ⟨hmain.1, hmain.2.1⟩

/-- C3: on every call sequence permitted by the public interface, a live
cursor of a live handle is at least `position + 1`; since fallthrough leaves the
cursor location holding `next_index`, a handle whose life ends normally
leaves `cursor ≥ position + 1`.  Moreover each non-consuming operation only
ever moves the cursor forward (skip amounts are non-negative `usize`s). -/
theorem cursor_invariant (h : VecMutationHandle T) (hr : Reachable h) :
    h.index + 1 ≤ h.next_index ∧
    (∀ t : T, h.next_index ≤ (h.set t).next_index) ∧
    (∀ t : T, h.next_index ≤ (h.replace t).2.next_index) ∧
    (∀ t : T, h.next_index ≤ (h.insert_and_process t).next_index) ∧
    (∀ t : T, h.next_index ≤ (h.insert_and_skip t).next_index) ∧
    (∀ ts : List T, h.next_index ≤ (h.insert_and_process_vec ts).next_index) ∧
    (∀ ts : List T, h.next_index ≤ (h.insert_and_skip_vec ts).next_index) ∧
    (∀ n : Nat, h.next_index ≤ (h.skip_forward n).next_index) := by
  refine ⟨hr.liveInv.2, fun t => Nat.le_refl _, fun t => Nat.le_refl _,
    fun t => Nat.le_refl _, fun t => ?_, fun ts => ?_, fun ts => ?_, fun n => ?_⟩
  · show h.next_index ≤ (h.insert_and_process t).next_index + 1
    exact Nat.le_succ_of_le (Nat.le_refl _)
  · show h.next_index ≤ (h.insert_and_process_vec ts).next_index
    rw [VecMutationHandle.insert_and_process_vec, next_index_foldl_insert]
  · show h.next_index ≤ (h.insert_and_process_vec ts).next_index + ts.length
    rw [VecMutationHandle.insert_and_process_vec, next_index_foldl_insert]
    exact Nat.le_add_right _ _
  · exact Nat.le_add_right _ _

/-- Witness for C3 at the reachable handle `new [1, 2] 0`. -/
theorem cursor_invariant_witness :
    (⟨[1, 2], 0, 1⟩ : VecMutationHandle Nat).index + 1 ≤
      (⟨[1, 2], 0, 1⟩ : VecMutationHandle Nat).next_index :=
  (cursor_invariant ⟨[1, 2], 0, 1⟩ (Reachable.new [1, 2] 0 _ rfl)).1

/-- C5 counterexample: the handle state produced by `new [0] 0` is reachable
through the public contract, yet `skip_forward usizeMAX` takes its cursor
strictly past `usizeMAX`: the `usize` addition performed by the Rust
`*self.next_index += steps_to_skip` (line 157) overflows on this input, so
the claim that the addition never overflows is false. -/
theorem skip_forward_overflow :
    Reachable (⟨[0], 0, 1⟩ : VecMutationHandle Nat) ∧
    usizeMAX < ((⟨[0], 0, 1⟩ : VecMutationHandle Nat).skip_forward usizeMAX).next_index := by
  refine ⟨Reachable.new [0] 0 _ rfl, ?_⟩
  show usizeMAX < 1 + usizeMAX
  omega

/-- C5 (amended): on every handle state reachable through the public
contract, the element lookups inside `get` and `get_mut` always find an
element, and the cursor decrement in `discard` cannot underflow (the cursor is
at least 1, so the decrement is exact); the cursor addition in `skip_forward`
stays
within `usize` whenever the mathematical sum `cursor + n` does not exceed
`usizeMAX` — with an arbitrary skip amount it can overflow
(`skip_forward_overflow`). -/
theorem no_failures_amended (h : VecMutationHandle T) (hr : Reachable h) :
    h.get.isSome ∧ h.get_mut.isSome ∧
    1 ≤ h.next_index ∧ h.discard.2.2 + 1 = h.next_index ∧
    (∀ n : Nat, h.next_index + n ≤ usizeMAX →
      (h.skip_forward n).next_index ≤ usizeMAX) := by
  obtain ⟨h1, h2⟩ := hr.liveInv
  refine ⟨?_, ?_, by omega, ?_, fun n hn => ?_⟩
  · simp [VecMutationHandle.get, List.getElem?_eq_getElem h1]
  · simp [VecMutationHandle.get_mut, List.getElem?_eq_getElem h1]
  · show h.next_index - 1 + 1 = h.next_index
    omega
  · simpa [VecMutationHandle.skip_forward] using hn

/-- Witness for C5 (amended) at the reachable handle `new [3] 0`. -/
theorem no_failures_amended_witness :
    (⟨[3], 0, 1⟩ : VecMutationHandle Nat).get.isSome :=
  (no_failures_amended ⟨[3], 0, 1⟩ (Reachable.new [3] 0 _ rfl)).1

/-- C7: `insert_and_skip` inserts the value at `position + 1` (later elements
shift up by one) and advances the cursor by one; concretely, on `[1, 2, 3]`
with the handle constructed at cursor value 1, `insert_and_skip 10` yields
the vector `[1, 2, 10, 3]` and cursor 3. -/
theorem insert_and_skip_spec :
    (∀ (h : VecMutationHandle T) (t : T), h.index < h.vec.length →
      (h.insert_and_skip t).vec =
        h.vec.take (h.index + 1) ++ t :: h.vec.drop (h.index + 1) ∧
      (h.insert_and_skip t).index = h.index ∧
      (h.insert_and_skip t).next_index = h.next_index + 1) ∧
    (VecMutationHandle.new [1, 2, 3] 1 = some ⟨[1, 2, 3], 1, 2⟩ ∧
      (VecMutationHandle.insert_and_skip ⟨[1, 2, 3], 1, 2⟩ 10).vec = [1, 2, 10, 3] ∧
      (VecMutationHandle.insert_and_skip ⟨[1, 2, 3], 1, 2⟩ 10).next_index = 3) := by
  refine ⟨fun h t hlt => ⟨?_, rfl, rfl⟩, by decide, by decide, by decide⟩
  show h.vec.insertIdx (h.index + 1) t = _
  exact insertIdx_eq_take_cons_drop t (h.index + 1) h.vec hlt

/-- Witness for the universally quantified part of C7, at the handle `new [5, 6] 0`. -/
theorem insert_and_skip_spec_witness :
    ((⟨[5, 6], 0, 1⟩ : VecMutationHandle Nat).insert_and_skip 9).vec =
      ([5, 6] : List Nat).take 1 ++ 9 :: ([5, 6] : List Nat).drop 1 :=
  (insert_and_skip_spec.1 (⟨[5, 6], 0, 1⟩ : VecMutationHandle Nat) 9 (by decide)).1

/-- C9: `discard_and_stop_iteration` is the combination of `discard` and
`stop_iteration`: its returned element and resulting vector are exactly
those of `discard`, and its final cursor value is exactly the sentinel set by
`stop_iteration`. -/
theorem discard_and_stop_iteration_spec (h : VecMutationHandle T) :
    h.discard_and_stop_iteration.1 = h.discard.1 ∧
    h.discard_and_stop_iteration.2.1 = h.discard.2.1 ∧
    h.discard_and_stop_iteration.2.2 = h.stop_iteration.2 :=
  ⟨rfl, rfl, rfl⟩

/-- A per-element operation, as a program over the public handle interface:
the body of the closure handed to `mutate_vec_by_handles`, restricted to its
interactions with the handle.  Read operations pass the observed value to a
continuation, so a program can branch on anything the Rust closure can
observe through the handle.  The consuming operations and fallthrough (`ret`)
end the program, since the handle is gone afterwards (Rust enforces this by
ownership). -/
inductive HandleProg (T : Type u) where
  | ret : HandleProg T
  | get (k : Option T → HandleProg T) : HandleProg T
  | peek (k : List T → HandleProg T) : HandleProg T
  | set (t : T) (k : HandleProg T) : HandleProg T
  | replace (t : T) (k : Option T → HandleProg T) : HandleProg T
  | insert_and_process (t : T) (k : HandleProg T) : HandleProg T
  | insert_and_skip (t : T) (k : HandleProg T) : HandleProg T
  | insert_and_process_vec (ts : List T) (k : HandleProg T) : HandleProg T
  | insert_and_skip_vec (ts : List T) (k : HandleProg T) : HandleProg T
  | skip_forward (n : Nat) (k : HandleProg T) : HandleProg T
  | discard : HandleProg T
  | stop_iteration : HandleProg T
  | discard_and_stop_iteration : HandleProg T

/-- Run one per-element operation over a live handle.  The result is the
final contents of the two borrowed locations (vector, cursor) together with
the list of elements the operation received by ownership from the discard
family (caller-visible returns). -/
def runProg : HandleProg T → VecMutationHandle T → (List T × Nat) × List T
  | .ret, h => ((h.vec, h.next_index), [])
  | .get k, h => runProg (k h.get) h
  | .peek k, h => runProg (k h.peek_forward) h
  | .set t k, h => runProg k (h.set t)
  | .replace t k, h => runProg (k (h.replace t).1) (h.replace t).2
  | .insert_and_process t k, h => runProg k (h.insert_and_process t)
  | .insert_and_skip t k, h => runProg k (h.insert_and_skip t)
  | .insert_and_process_vec ts k, h => runProg k (h.insert_and_process_vec ts)
  | .insert_and_skip_vec ts k, h => runProg k (h.insert_and_skip_vec ts)
  | .skip_forward n k, h => runProg k (h.skip_forward n)
  | .discard, h => ((h.discard.2.1, h.discard.2.2), h.discard.1.toList)
  | .stop_iteration, h => (h.stop_iteration, [])
  | .discard_and_stop_iteration, h =>
      ((h.discard_and_stop_iteration.2.1, h.discard_and_stop_iteration.2.2),
        h.discard_and_stop_iteration.1.toList)

/-- The observable state of the driven loop: the vector, the cursor, how many
handles have been constructed so far (visits), and everything the operations
received by ownership from the discard family, in order. -/
structure DriverState (T : Type u) where
  vec : List T
  cursor : Nat
  visits : Nat
  removed : List T
deriving DecidableEq

/-- One iteration of the while loop in `mutate_vec_by_handles`
(lines 232-238): attempt `VecMutationHandle::new`; on failure the state is
unchanged, otherwise the per-element operation for the current visit is run
over the fresh handle.  The `FnMut` closure state is modelled by indexing the
program by the visit count. -/
def driveStep (F : Nat → HandleProg T) (s : DriverState T) : DriverState T :=
  match VecMutationHandle.new s.vec s.cursor with
  | some h =>
      let r := runProg (F s.visits) h
      ⟨r.1.1, r.1.2, s.visits + 1, s.removed ++ r.2⟩
  | none => s

/-- The driven interface `mutate_vec_by_handles` (lines 232-238), unrolled:
the loop state after `n` iterations, starting from cursor 0 as in the
source. -/
def mutate_vec_by_handles (F : Nat → HandleProg T) (vec : List T) (n : Nat) :
    DriverState T :=
  (driveStep F)^[n] ⟨vec, 0, 0, []⟩

/-- The loop guard has failed: `new` would return no handle. -/
def Done (s : DriverState T) : Prop := s.vec.length ≤ s.cursor

instance (s : DriverState T) : Decidable (Done s) :=
  inferInstanceAs (Decidable (s.vec.length ≤ s.cursor))

/-- The while loop of `mutate_vec_by_handles` exits after finitely many
iterations. -/
def Terminates (F : Nat → HandleProg T) (vec : List T) : Prop :=
  ∃ n, Done (mutate_vec_by_handles F vec n)

theorem driveStep_done (F : Nat → HandleProg T) {s : DriverState T} (hd : Done s) :
    driveStep F s = s := by
  unfold driveStep
  have hnone : VecMutationHandle.new s.vec s.cursor = none := by
    unfold VecMutationHandle.new
    rw [if_neg (Nat.not_lt.mpr hd)]
  rw [hnone]

theorem driveStep_not_done (F : Nat → HandleProg T) {s : DriverState T}
    (hd : s.cursor < s.vec.length) :
    driveStep F s =
      ⟨(runProg (F s.visits) ⟨s.vec, s.cursor, s.cursor + 1⟩).1.1,
        (runProg (F s.visits) ⟨s.vec, s.cursor, s.cursor + 1⟩).1.2,
        s.visits + 1,
        s.removed ++ (runProg (F s.visits) ⟨s.vec, s.cursor, s.cursor + 1⟩).2⟩ := by
  unfold driveStep
  have hsome : VecMutationHandle.new s.vec s.cursor =
      some ⟨s.vec, s.cursor, s.cursor + 1⟩ := by
    unfold VecMutationHandle.new
    rw [if_pos hd]
  rw [hsome]

theorem foldl_insert_facts (l : List T) (h : VecMutationHandle T) (hi : LiveInv h) :
    (l.foldl (fun a t => a.insert_and_process t) h).vec.length = h.vec.length + l.length ∧
    (l.foldl (fun a t => a.insert_and_process t) h).index = h.index := by
  induction l generalizing h with
  | nil => exact ⟨rfl, rfl⟩
  | cons x xs ih =>
    obtain ⟨hl, hidx⟩ := ih (h.insert_and_process x) (liveInv_insert_and_process h x hi)
    have hlen : (h.insert_and_process x).vec.length = h.vec.length + 1 :=
      List.length_insertIdx _ _ hi.1
    refine ⟨?_, hidx⟩
    show (xs.foldl (fun a t => a.insert_and_process t) (h.insert_and_process x)).vec.length = _
    rw [hl, hlen, List.length_cons]
    omega

/-- Programs that never call `insert_and_process` or
`insert_and_process_vec`; the skipping insertion variants are allowed. -/
inductive NoProcess : HandleProg T → Prop
  | ret : NoProcess .ret
  | get {k : Option T → HandleProg T} : (∀ v, NoProcess (k v)) → NoProcess (.get k)
  | peek {k : List T → HandleProg T} : (∀ v, NoProcess (k v)) → NoProcess (.peek k)
  | set {t : T} {k : HandleProg T} : NoProcess k → NoProcess (.set t k)
  | replace {t : T} {k : Option T → HandleProg T} :
      (∀ v, NoProcess (k v)) → NoProcess (.replace t k)
  | insert_and_skip {t : T} {k : HandleProg T} :
      NoProcess k → NoProcess (.insert_and_skip t k)
  | insert_and_skip_vec {ts : List T} {k : HandleProg T} :
      NoProcess k → NoProcess (.insert_and_skip_vec ts k)
  | skip_forward {n : Nat} {k : HandleProg T} :
      NoProcess k → NoProcess (.skip_forward n k)
  | discard : NoProcess .discard
  | stop_iteration : NoProcess .stop_iteration
  | discard_and_stop_iteration : NoProcess .discard_and_stop_iteration

/-- For a program without `insert_and_process`, one run either sets the stop
sentinel or does not increase the gap between the vector length and the
cursor. -/
theorem runProg_measure {p : HandleProg T} (hp : NoProcess p) :
    ∀ h : VecMutationHandle T, LiveInv h →
      (runProg p h).1.2 = usizeMAX ∨
        (runProg p h).1.1.length - (runProg p h).1.2 ≤
          h.vec.length - h.next_index := by
  induction hp with
  | ret => exact fun h _ => Or.inr (Nat.le_refl _)
  | get hk ih => exact fun h hi => ih _ h hi
  | peek hk ih => exact fun h hi => ih _ h hi
  | set hk ih =>
    rename_i t k
    intro h hi
    rcases ih (h.set t) (liveInv_set h t hi) with hs | hm
    · exact Or.inl hs
    · refine Or.inr (le_trans hm ?_)
      show (h.set t).vec.length - (h.set t).next_index ≤ _
      rw [VecMutationHandle.set]
      simp only [List.length_set]
      exact Nat.le_refl _
  | replace hk ih =>
    rename_i t k
    intro h hi
    rcases ih (h.replace t).1 (h.replace t).2 (liveInv_set h t hi) with hs | hm
    · exact Or.inl hs
    · refine Or.inr (le_trans hm ?_)
      show (h.set t).vec.length - (h.set t).next_index ≤ _
      rw [VecMutationHandle.set]
      simp only [List.length_set]
      exact Nat.le_refl _
  | insert_and_skip hk ih =>
    rename_i t k
    intro h hi
    rcases ih (h.insert_and_skip t) (liveInv_insert_and_skip h t hi) with hs | hm
    · exact Or.inl hs
    · refine Or.inr (le_trans hm ?_)
      have hlen : (h.insert_and_skip t).vec.length = h.vec.length + 1 :=
        List.length_insertIdx _ _ hi.1
      rw [hlen]
      show h.vec.length + 1 - (h.next_index + 1) ≤ _
      omega
  | insert_and_skip_vec hk ih =>
    rename_i ts k
    intro h hi
    rcases ih (h.insert_and_skip_vec ts) (liveInv_insert_and_skip_vec h ts hi) with hs | hm
    · exact Or.inl hs
    · refine Or.inr (le_trans hm ?_)
      have hlen : (h.insert_and_skip_vec ts).vec.length = h.vec.length + ts.length := by
        show (h.insert_and_process_vec ts).vec.length = _
        rw [VecMutationHandle.insert_and_process_vec,
          (foldl_insert_facts ts.reverse h hi).1, List.length_reverse]
      rw [hlen]
      show h.vec.length + ts.length -
        ((h.insert_and_process_vec ts).next_index + ts.length) ≤ _
      rw [VecMutationHandle.insert_and_process_vec, next_index_foldl_insert]
      omega
  | skip_forward hk ih =>
    rename_i n k
    intro h hi
    rcases ih (h.skip_forward n) (liveInv_skip_forward h n hi) with hs | hm
    · exact Or.inl hs
    · refine Or.inr (le_trans hm ?_)
      show h.vec.length - (h.next_index + n) ≤ _
      omega
  | discard =>
    intro h hi
    refine Or.inr ?_
    show (h.vec.eraseIdx h.index).length - (h.next_index - 1) ≤ _
    rw [List.length_eraseIdx]
    have := hi.1
    have := hi.2
    split <;> omega
  | stop_iteration => exact fun h _ => Or.inl rfl
  | discard_and_stop_iteration => exact fun h _ => Or.inl rfl

theorem terminates_aux (F : Nat → HandleProg T) (hF : ∀ i, NoProcess (F i)) :
    ∀ (k : Nat) (s : DriverState T),
      (∀ n, ((driveStep F)^[n] s).vec.length ≤ usizeMAX) →
      s.vec.length - s.cursor ≤ k →
      ∃ n, Done ((driveStep F)^[n] s) := by
  intro k
  induction k with
  | zero =>
    intro s _ hm
    refine ⟨0, ?_⟩
    rw [Function.iterate_zero_apply]
    unfold Done
    omega
  | succ k ih =>
    intro s hlen hm
    by_cases hd : Done s
    · exact ⟨0, hd⟩
    · have hlt : s.cursor < s.vec.length := Nat.not_le.mp hd
      have hstep := driveStep_not_done F hlt
      have hinv : LiveInv (⟨s.vec, s.cursor, s.cursor + 1⟩ : VecMutationHandle T) :=
        ⟨hlt, Nat.le_refl _⟩
      rcases runProg_measure (hF s.visits) ⟨s.vec, s.cursor, s.cursor + 1⟩ hinv with
        hs | hmeas
      · refine ⟨1, ?_⟩
        have h1 : (driveStep F)^[1] s = driveStep F s := Function.iterate_one _ ▸ rfl
        rw [h1, hstep]
        show (runProg (F s.visits) ⟨s.vec, s.cursor, s.cursor + 1⟩).1.1.length ≤
          (runProg (F s.visits) ⟨s.vec, s.cursor, s.cursor + 1⟩).1.2
        rw [hs]
        have := hlen 1
        rw [h1, hstep] at this
        exact this
      · obtain ⟨n, hn⟩ := ih (driveStep F s)
          (fun n => by
            have := hlen (n + 1)
            rwa [Function.iterate_succ_apply] at this)
          (by
            rw [hstep]
            show (runProg (F s.visits) ⟨s.vec, s.cursor, s.cursor + 1⟩).1.1.length -
              (runProg (F s.visits) ⟨s.vec, s.cursor, s.cursor + 1⟩).1.2 ≤ k
            have hmeas' : (runProg (F s.visits) ⟨s.vec, s.cursor, s.cursor + 1⟩).1.1.length -
                (runProg (F s.visits) ⟨s.vec, s.cursor, s.cursor + 1⟩).1.2 ≤
                  s.vec.length - (s.cursor + 1) := hmeas
            omega)
        refine ⟨n + 1, ?_⟩
        rwa [Function.iterate_succ_apply]

theorem mutate_insert_forever (n : Nat) :
    mutate_vec_by_handles (fun _ => HandleProg.insert_and_process 0 HandleProg.ret) [0] n =
      ⟨List.replicate (n + 1) 0, n, n, []⟩ := by
  induction n with
  | zero => rfl
  | succ n ih =>
    have hsucc : mutate_vec_by_handles
        (fun _ => HandleProg.insert_and_process 0 HandleProg.ret) [0] (n + 1) =
        driveStep (fun _ => HandleProg.insert_and_process 0 HandleProg.ret)
          (mutate_vec_by_handles (fun _ => HandleProg.insert_and_process 0 HandleProg.ret)
            [0] n) :=
      Function.iterate_succ_apply' _ _ _
    rw [hsucc, ih]
    have hcur : (⟨List.replicate (n + 1) 0, n, n, []⟩ : DriverState Nat).cursor <
        (⟨List.replicate (n + 1) 0, n, n, []⟩ : DriverState Nat).vec.length := by
      show n < (List.replicate (n + 1) (0 : Nat)).length
      rw [List.length_replicate]
      omega
    rw [driveStep_not_done _ hcur]
    have hins : (List.replicate (n + 1) (0 : Nat)).insertIdx (n + 1) 0 =
        List.replicate (n + 2) 0 := by
      have h1 := List.insertIdx_length_self (List.replicate (n + 1) (0 : Nat)) 0
      rw [List.length_replicate] at h1
      exact h1.trans (List.replicate_succ' (n + 1) 0).symm
    show (⟨(List.replicate (n + 1) (0 : Nat)).insertIdx (n + 1) 0, n + 1, n + 1,
      [] ++ []⟩ : DriverState Nat) = _
    rw [hins]
    rfl

/-- C4 counterexample: with the per-element operation that always calls
`insert_and_process(0)` and falls through, the driven loop on the one-element
vector `[0]` never terminates: after `n` iterations the cursor is `n` while
the vector has grown to length `n + 1`, so the handle construction at the
head of the loop always succeeds and the pass never reaches a "no handle"
result. -/
theorem mutate_vec_by_handles_no_termination :
    ¬ Terminates (fun _ => HandleProg.insert_and_process (0 : Nat) HandleProg.ret) [0] := by
  rintro ⟨n, hn⟩
  rw [mutate_insert_forever n] at hn
  have hlen : (List.replicate (n + 1) (0 : Nat)).length ≤ n := hn
  rw [List.length_replicate] at hlen
  omega

/-- C4 (amended): the driven loop terminates for every per-element operation
built from the public handle interface that never inserts an element to be
processed in the same pass (no `insert_and_process` /
`insert_and_process_vec`; the skipping insertion variants are allowed),
provided every vector arising during the pass has a `usize`-representable
length, as every real Rust vector does.  With `insert_and_process` permitted
the loop need not terminate (`mutate_vec_by_handles_no_termination`). -/
theorem mutate_vec_by_handles_terminates (F : Nat → HandleProg T) (vec : List T)
    (hF : ∀ i, NoProcess (F i))
    (hlen : ∀ n, (mutate_vec_by_handles F vec n).vec.length ≤ usizeMAX) :
    Terminates F vec :=
  terminates_aux F hF vec.length ⟨vec, 0, 0, []⟩ hlen
    (by show vec.length - 0 ≤ vec.length; omega)

/-- Witness for C4 (amended): the all-discard pass over `[5]` terminates. -/
theorem mutate_vec_by_handles_terminates_witness :
    Terminates (fun _ => (HandleProg.discard : HandleProg Nat)) [5] := by
  refine mutate_vec_by_handles_terminates _ _ (fun i => NoProcess.discard) ?_
  intro n
  match n with
  | 0 =>
    show ([5] : List Nat).length ≤ usizeMAX
    unfold usizeMAX
    norm_num
  | Nat.succ m =>
    have hone : driveStep (fun _ => (HandleProg.discard : HandleProg Nat)) ⟨[5], 0, 0, []⟩ =
        ⟨[], 0, 1, [5]⟩ := rfl
    have hfix : driveStep (fun _ => (HandleProg.discard : HandleProg Nat)) ⟨[], 0, 1, [5]⟩ =
        ⟨[], 0, 1, [5]⟩ := rfl
    have hall : mutate_vec_by_handles (fun _ => (HandleProg.discard : HandleProg Nat)) [5]
        (m + 1) = ⟨[], 0, 1, [5]⟩ := by
      show (driveStep _)^[m + 1] _ = _
      rw [Function.iterate_succ_apply, hone, Function.iterate_fixed hfix]
    rw [hall]
    exact Nat.zero_le _

/-- Programs whose terminal operation sets the stop sentinel
(`stop_iteration` or `discard_and_stop_iteration`), whatever values the read
operations observe on the way. -/
inductive EndsStop : HandleProg T → Prop
  | stop_iteration : EndsStop .stop_iteration
  | discard_and_stop_iteration : EndsStop .discard_and_stop_iteration
  | get {k : Option T → HandleProg T} : (∀ v, EndsStop (k v)) → EndsStop (.get k)
  | peek {k : List T → HandleProg T} : (∀ v, EndsStop (k v)) → EndsStop (.peek k)
  | set {t : T} {k : HandleProg T} : EndsStop k → EndsStop (.set t k)
  | replace {t : T} {k : Option T → HandleProg T} :
      (∀ v, EndsStop (k v)) → EndsStop (.replace t k)
  | insert_and_process {t : T} {k : HandleProg T} :
      EndsStop k → EndsStop (.insert_and_process t k)
  | insert_and_skip {t : T} {k : HandleProg T} :
      EndsStop k → EndsStop (.insert_and_skip t k)
  | insert_and_process_vec {ts : List T} {k : HandleProg T} :
      EndsStop k → EndsStop (.insert_and_process_vec ts k)
  | insert_and_skip_vec {ts : List T} {k : HandleProg T} :
      EndsStop k → EndsStop (.insert_and_skip_vec ts k)
  | skip_forward {n : Nat} {k : HandleProg T} : EndsStop k → EndsStop (.skip_forward n k)

theorem runProg_endsStop {p : HandleProg T} (hp : EndsStop p) :
    ∀ h : VecMutationHandle T, (runProg p h).1.2 = usizeMAX := by
  induction hp with
  | stop_iteration => exact fun h => rfl
  | discard_and_stop_iteration => exact fun h => rfl
  | get hk ih => exact fun h => ih _ h
  | peek hk ih => exact fun h => ih _ h
  | set hk ih => exact fun h => ih _
  | replace hk ih => exact fun h => ih _ _
  | insert_and_process hk ih => exact fun h => ih _
  | insert_and_skip hk ih => exact fun h => ih _
  | insert_and_process_vec hk ih => exact fun h => ih _
  | insert_and_skip_vec hk ih => exact fun h => ih _
  | skip_forward hk ih => exact fun h => ih _

/-- C6: when the per-element operation run on the k-th constructed handle
ends by calling `stop_iteration` (possibly combined with a discard), that
iteration sets the cursor to the `usize::MAX` sentinel, brings the visit
count to exactly `k`, and the loop state never changes afterwards: exactly
`k` elements are visited in the pass, regardless of the length of the vector (any
vector a real Rust program holds has length at most `usizeMAX`, hypothesis
`hlen`).  The k-th invocation is not cut short: the driver consumes the
complete result of the operation, so work scheduled after the `stop_iteration`
call within the same invocation still takes effect. -/
theorem stop_iteration_spec (F : Nat → HandleProg T) (vec : List T) (m k : Nat)
    (hv : (mutate_vec_by_handles F vec m).visits + 1 = k)
    (hlive : (mutate_vec_by_handles F vec m).cursor <
      (mutate_vec_by_handles F vec m).vec.length)
    (hstop : EndsStop (F ((mutate_vec_by_handles F vec m).visits)))
    (hlen : (mutate_vec_by_handles F vec (m + 1)).vec.length ≤ usizeMAX) :
    (mutate_vec_by_handles F vec (m + 1)).cursor = usizeMAX ∧
    (mutate_vec_by_handles F vec (m + 1)).visits = k ∧
    ∀ n, m + 1 ≤ n →
      mutate_vec_by_handles F vec n = mutate_vec_by_handles F vec (m + 1) := by
  have hsucc : mutate_vec_by_handles F vec (m + 1) =
      driveStep F (mutate_vec_by_handles F vec m) :=
    Function.iterate_succ_apply' _ _ _
  have hstep := driveStep_not_done F hlive
  have hcur : (mutate_vec_by_handles F vec (m + 1)).cursor = usizeMAX := by
    rw [hsucc, hstep]
    show (runProg (F (mutate_vec_by_handles F vec m).visits)
      ⟨(mutate_vec_by_handles F vec m).vec, (mutate_vec_by_handles F vec m).cursor,
        (mutate_vec_by_handles F vec m).cursor + 1⟩).1.2 = usizeMAX
    exact runProg_endsStop hstop _
  have hvis : (mutate_vec_by_handles F vec (m + 1)).visits = k := by
    rw [hsucc, hstep]
    exact hv
  have hdone : Done (mutate_vec_by_handles F vec (m + 1)) := by
    show (mutate_vec_by_handles F vec (m + 1)).vec.length ≤
      (mutate_vec_by_handles F vec (m + 1)).cursor
    rw [hcur]
    exact hlen
  refine ⟨hcur, hvis, ?_⟩
  intro n hn
  obtain ⟨d, rfl⟩ : ∃ d, n = d + (m + 1) := ⟨n - (m + 1), by omega⟩
  have hfix : driveStep F (mutate_vec_by_handles F vec (m + 1)) =
      mutate_vec_by_handles F vec (m + 1) :=
    driveStep_done F hdone
  show (driveStep F)^[d + (m + 1)] (⟨vec, 0, 0, []⟩ : DriverState T) = _
  rw [Function.iterate_add_apply]
  exact Function.iterate_fixed hfix d

/-- Witness for C6: stopping on the first visit of a pass over `[1, 2, 3]`. -/
theorem stop_iteration_spec_witness :
    (mutate_vec_by_handles (fun _ => (HandleProg.stop_iteration : HandleProg Nat))
      [1, 2, 3] 1).cursor = usizeMAX ∧
    (mutate_vec_by_handles (fun _ => (HandleProg.stop_iteration : HandleProg Nat))
      [1, 2, 3] 1).visits = 1 := by
  have h := stop_iteration_spec (fun _ => (HandleProg.stop_iteration : HandleProg Nat))
    [1, 2, 3] 0 1 rfl (by decide) EndsStop.stop_iteration
    (by show ([1, 2, 3] : List Nat).length ≤ usizeMAX; unfold usizeMAX; norm_num)
  exact ⟨h.1, h.2.1⟩

theorem discard_all_aux (vec : List T) :
    ∀ n, n ≤ vec.length →
      mutate_vec_by_handles (fun _ => HandleProg.discard) vec n =
        ⟨vec.drop n, 0, n, vec.take n⟩ := by
  intro n
  induction n with
  | zero =>
    intro _
    show (⟨vec, 0, 0, []⟩ : DriverState T) = ⟨vec.drop 0, 0, 0, vec.take 0⟩
    rw [List.drop_zero, List.take_zero]
  | succ n ih =>
    intro hle
    have hsucc : mutate_vec_by_handles (fun _ => (HandleProg.discard : HandleProg T)) vec
        (n + 1) =
        driveStep (fun _ => HandleProg.discard)
          (mutate_vec_by_handles (fun _ => HandleProg.discard) vec n) :=
      Function.iterate_succ_apply' _ _ _
    rw [hsucc, ih (by omega)]
    have hcur : (⟨vec.drop n, 0, n, vec.take n⟩ : DriverState T).cursor <
        (⟨vec.drop n, 0, n, vec.take n⟩ : DriverState T).vec.length := by
      show 0 < (vec.drop n).length
      rw [List.length_drop]
      omega
    rw [driveStep_not_done _ hcur]
    have hvec : (vec.drop n).eraseIdx 0 = vec.drop (n + 1) := by
      rw [List.eraseIdx_zero, List.tail_drop]
    have hrem : vec.take n ++ ((vec.drop n)[(0 : Nat)]?).toList = vec.take (n + 1) := by
      rw [List.getElem?_drop, Nat.add_zero, ← List.take_succ]
    show (⟨(vec.drop n).eraseIdx 0, 1 - 1, n + 1,
      vec.take n ++ ((vec.drop n)[(0 : Nat)]?).toList⟩ : DriverState T) = _
    rw [hvec, hrem]

/-- C8: the driven pass whose operation discards every handle it receives
leaves the vector empty, constructs exactly `N` handles — one per original
element, each visited once — and returns the removed elements to the caller
exactly once each, in the original order: after `N` iterations the state is
`⟨[], 0, N, original vector⟩`, the loop guard has failed, and every later
iterate is unchanged. -/
theorem discard_all_spec (vec : List T) :
    mutate_vec_by_handles (fun _ => HandleProg.discard) vec vec.length =
      ⟨[], 0, vec.length, vec⟩ ∧
    Done (mutate_vec_by_handles (fun _ => HandleProg.discard) vec vec.length) ∧
    (∀ n, vec.length ≤ n →
      mutate_vec_by_handles (fun _ => HandleProg.discard) vec n =
        ⟨[], 0, vec.length, vec⟩) := by
  have hfin := discard_all_aux vec vec.length (Nat.le_refl _)
  rw [List.drop_length, List.take_length] at hfin
  have hdone : Done (mutate_vec_by_handles (fun _ => (HandleProg.discard : HandleProg T))
      vec vec.length) := by
    rw [hfin]
    exact Nat.le_refl 0
  refine ⟨hfin, hdone, ?_⟩
  intro n hn
  obtain ⟨d, rfl⟩ : ∃ d, n = d + vec.length := ⟨n - vec.length, by omega⟩
  have hdone2 : Done (⟨[], 0, vec.length, vec⟩ : DriverState T) := Nat.le_refl 0
  have hfix : driveStep (fun _ => (HandleProg.discard : HandleProg T))
      ⟨[], 0, vec.length, vec⟩ = ⟨[], 0, vec.length, vec⟩ :=
    driveStep_done _ hdone2
  show (driveStep (fun _ => (HandleProg.discard : HandleProg T)))^[d + vec.length]
    (⟨vec, 0, 0, []⟩ : DriverState T) = _
  rw [Function.iterate_add_apply]
  have hbase : (driveStep (fun _ => (HandleProg.discard : HandleProg T)))^[vec.length]
      (⟨vec, 0, 0, []⟩ : DriverState T) = ⟨[], 0, vec.length, vec⟩ := hfin
  rw [hbase, Function.iterate_fixed hfix]

/-- Witness for the tail clause of C8, at `vec = [4, 5]`, `n = 7`. -/
theorem discard_all_spec_witness :
    mutate_vec_by_handles (fun _ => (HandleProg.discard : HandleProg Nat)) [4, 5] 7 =
      ⟨[], 0, 2, [4, 5]⟩ :=
  (discard_all_spec [4, 5]).2.2 7 (by decide)

end HandleVec
